import Mathlib

/-!
Shallow embedding of the Centurion price-aggregation and arbitrage-detection
engine (src/services/price_monitor_simple.py, src/services/price_monitor.py,
src/services/marketplaces/{base,csfloat,steam}.py, src/api/routes.py,
src/models/skin.py), together with proofs of the specification claims.

Prices are modelled as rationals; Python dictionaries (which preserve
insertion order) are modelled as insertion-ordered association lists.
-/

set_option linter.unusedVariables false

/-- One marketplace price observation, mirroring the `SkinPrice` dataclass of
`src/services/marketplaces/base.py` (the `currency` and `timestamp` fields,
never read by the engine, are omitted). -/
structure SkinPrice where
  marketplace : String
  price : ℚ
  available : Bool := true
  listingCount : ℕ := 0
  url : String := ""
  condition : String := ""
  stattrak : Bool := false
  souvenir : Bool := false
deriving DecidableEq, Repr

/-- An emitted arbitrage opportunity, mirroring the dictionary built in
`SimplePriceMonitor.find_arbitrage_opportunities` (the wall-clock
`detected_at` field is omitted). -/
structure Opportunity where
  skinName : String
  weapon : Option String
  condition : String
  stattrak : Bool
  souvenir : Bool
  buyMarketplace : String
  sellMarketplace : String
  buyPrice : ℚ
  sellPrice : ℚ
  profitAmount : ℚ
  profitPercentage : ℚ
  fees : ℚ
  netProfit : ℚ
  buyUrl : String
  sellUrl : String
deriving DecidableEq, Repr

/-- A configured marketplace source: its display name, its fee function
(`get_fees`) and its quote search (`search_skin`, which may raise — modelled
with `Except`). -/
structure SourceImpl where
  name : String
  fee : ℚ → ℚ
  search : String → Option String → Except String (List SkinPrice)

/-- ASCII lowering of a string, mirroring Python `str.lower()` on the ASCII
marketplace and condition labels used by the engine. -/
def strToLower (s : String) : String :=
  String.mk (s.data.map Char.toLower)

/-- Boolean test: `charsPrefixOf a b` holds iff `a` is a prefix of `b`. -/
def charsPrefixOf : List Char → List Char → Bool
  | [], _ => true
  | _ :: _, [] => false
  | a :: as, b :: bs => a = b && charsPrefixOf as bs

/-- Boolean test: `charsInfixOf a b` holds iff `a` occurs contiguously inside `b`,
mirroring Python's `needle in hay` on strings. -/
def charsInfixOf : List Char → List Char → Bool
  | [], _ => true
  | _ :: _, [] => false
  | a :: as, b :: bs => charsPrefixOf (a :: as) (b :: bs) || charsInfixOf (a :: as) bs

/-- Python `needle in hay` for strings. -/
def strContains (hay needle : String) : Bool :=
  charsInfixOf needle.data hay.data

/-- Condition normalization in `SimplePriceMonitor._create_item_key`:
`(price.condition or "").lower().replace(" ", "_")`.  Lowering is ASCII
per-character, and since lowering never touches spaces the two passes fuse
into one character map. -/
def normalizeCondition (c : String) : String :=
  String.mk (c.data.map (fun ch => if ch.toLower = ' ' then '_' else ch.toLower))

/-- Grouping key of `SimplePriceMonitor._create_item_key`:
`"|".join([weapon or "", skin_name or "", condition, stattrak?, souvenir?])`.
A `None` weapon is the `none` case; `s or ""` is the identity on strings. -/
def createItemKey (q : SkinPrice) (weapon : Option String) (skinName : String) : String :=
  (weapon.getD "") ++ "|" ++ skinName ++ "|" ++ normalizeCondition q.condition ++ "|" ++
    (if q.stattrak then "stattrak" else "regular") ++ "|" ++
    (if q.souvenir then "souvenir" else "normal")

/-- Display condition of `SimplePriceMonitor._extract_item_details`:
`price.condition or "Unknown"`. -/
def extractCondition (q : SkinPrice) : String :=
  if q.condition = "" then "Unknown" else q.condition

/-- The five real wear conditions recognized by the scrapers
(`SteamMarketplace._extract_condition`). -/
def realConditions : List String :=
  ["Factory New", "Minimal Wear", "Field-Tested", "Well-Worn", "Battle-Scarred"]

/-- Append `x` to the group keyed `k`, creating the group at the end when the
key is new — exactly how the Python code populates its grouping `dict`s
(insertion order preserved). -/
def insertGrouped {α : Type} (k : String) (x : α) :
    List (String × List α) → List (String × List α)
  | [] => [(k, [x])]
  | (k', xs) :: rest =>
    if k = k' then (k', xs ++ [x]) :: rest
    else (k', xs) :: insertGrouped k x rest

/-- Group a list by a string key into an insertion-ordered association list,
modelling the `item_groups` / `marketplace_prices` dictionaries. -/
def groupByKey {α : Type} (key : α → String) (l : List α) : List (String × List α) :=
  l.foldl (fun acc x => insertGrouped (key x) x acc) []

/-- The members of group `k` (empty when the key is absent). -/
def groupOf {α : Type} (k : String) (gs : List (String × List α)) : List α :=
  match gs.find? (fun g => g.1 = k) with
  | some g => g.2
  | none => []

/-- The scan underlying Python `min(list, key=...)`: keep the current best,
replace it only on a strictly smaller price. -/
def pickMin (p : SkinPrice) (ps : List SkinPrice) : SkinPrice :=
  ps.foldl (fun best q => if q.price < best.price then q else best) p

/-- The scan underlying Python `max(list, key=...)`: replace the current best
only on a strictly larger price. -/
def pickMax (p : SkinPrice) (ps : List SkinPrice) : SkinPrice :=
  ps.foldl (fun best q => if best.price < q.price then q else best) p

/-- Python `min(list, key=lambda p: p.price)` on a nonempty list: scans left
to right and keeps the first element attaining the minimum. -/
def minByPrice : List SkinPrice → Option SkinPrice
  | [] => none
  | p :: ps => some (pickMin p ps)

/-- Python `max(list, key=lambda p: p.price)` on a nonempty list: keeps the
first element attaining the maximum. -/
def maxByPrice : List SkinPrice → Option SkinPrice
  | [] => none
  | p :: ps => some (pickMax p ps)

/-- Python `min` on a nonempty list of rationals (`0` on `[]`, unreachable in
the guarded call sites). -/
def pyMinQ : List ℚ → ℚ
  | [] => 0
  | x :: xs => xs.foldl min x

/-- Python `max` on a nonempty list of rationals. -/
def pyMaxQ : List ℚ → ℚ
  | [] => 0
  | x :: xs => xs.foldl max x

/-- Fee dispatch of `_get_marketplace_fees`: the first configured source whose lowercased
name occurs inside the lowercased marketplace label computes the fee;
otherwise the fee is `0.0`. -/
def getMarketplaceFees (sources : List SourceImpl) (marketplace : String) (price : ℚ) : ℚ :=
  match sources.find? (fun mp => strContains (strToLower marketplace) (strToLower mp.name)) with
  | some mp => mp.fee price
  | none => 0

/-- Fee schedule of `CSFloatMarketplace.get_fees`: `price * 0.025`. -/
def csfloatGetFees (price : ℚ) : ℚ := price * 0.025

/-- Fee schedule of `SteamMarketplace.get_fees`: `price * 0.15`. -/
def steamGetFees (price : ℚ) : ℚ := price * 0.15

/-- Aggregation of `search_skin_manual`: query every configured source in order, concatenate
the successful results, and swallow (log-only) any raising source. -/
def searchSkinManual (sources : List SourceImpl) (skinName : String) (weapon : Option String) :
    List SkinPrice :=
  sources.foldl
    (fun acc mp =>
      match mp.search skinName weapon with
      | Except.ok ps => acc ++ ps
      | Except.error _ => acc)
    []

/-- The `marketplace_lowest` values of `find_arbitrage_opportunities`: the
cheapest quote of each marketplace, in marketplace first-seen order. -/
def perMarketplaceLowest (itemPrices : List SkinPrice) : List SkinPrice :=
  (groupByKey (fun p => p.marketplace) itemPrices).filterMap (fun g => minByPrice g.2)

/-- The opportunity record assembled at the end of the per-group analysis in
`find_arbitrage_opportunities`, from the group's buy (`lowest_price_obj`) and
sell (`highest_price_obj`) quotes. -/
def mkOpportunity (sources : List SourceImpl) (skinName : String) (weapon : Option String)
    (lo hi : SkinPrice) : Opportunity :=
  { skinName := skinName
    weapon := weapon
    condition := extractCondition lo
    stattrak := lo.stattrak
    souvenir := lo.souvenir
    buyMarketplace := lo.marketplace
    sellMarketplace := hi.marketplace
    buyPrice := lo.price
    sellPrice := hi.price
    profitAmount := hi.price - lo.price
    profitPercentage := (hi.price - lo.price) / lo.price * 100
    fees := getMarketplaceFees sources lo.marketplace lo.price +
      getMarketplaceFees sources hi.marketplace hi.price
    netProfit := (hi.price - lo.price) -
      (getMarketplaceFees sources lo.marketplace lo.price +
        getMarketplaceFees sources hi.marketplace hi.price)
    buyUrl := lo.url
    sellUrl := hi.url }

/-- The per-item-group body of `find_arbitrage_opportunities` (lines 75-150):
keep groups quoted on at least two marketplaces, take the cheapest quote per
marketplace, pick the global min (buy) and max (sell) of those, and apply the
same-marketplace, spread, profit-percentage and net-profit gates in order. -/
def processGroup (minProfitThreshold maxPriceDifference : ℚ) (sources : List SourceImpl)
    (skinName : String) (weapon : Option String) (itemPrices : List SkinPrice) :
    Option Opportunity :=
  if itemPrices.length < 2 then none
  else
    if (perMarketplaceLowest itemPrices).length < 2 then none
    else
      match minByPrice (perMarketplaceLowest itemPrices),
        maxByPrice (perMarketplaceLowest itemPrices) with
      | some lowest, some highest =>
        if lowest.marketplace = highest.marketplace then none
        else if highest.price - lowest.price < maxPriceDifference then none
        else if (highest.price - lowest.price) / lowest.price * 100 < minProfitThreshold then none
        else if (highest.price - lowest.price) -
            (getMarketplaceFees sources lowest.marketplace lowest.price +
              getMarketplaceFees sources highest.marketplace highest.price) ≤ 0 then none
        else some (mkOpportunity sources skinName weapon lowest highest)
      | _, _ => none

/-- Stable insertion (descending by `key`) used to model Python's stable
`list.sort(key=..., reverse=True)`. -/
def insertDescBy {α : Type} (key : α → ℚ) (x : α) : List α → List α
  | [] => [x]
  | y :: ys => if key x < key y then y :: insertDescBy key x ys else x :: y :: ys

/-- Stable descending sort by `key`. -/
def sortDescBy {α : Type} (key : α → ℚ) (l : List α) : List α :=
  l.foldr (insertDescBy key) []

/-- Detection of `SimplePriceMonitor.find_arbitrage_opportunities` on an already-aggregated
quote list: group by item key, analyze each group, and sort the emitted
opportunities by net profit, highest first. -/
def findArbitrageOpportunities (minProfitThreshold maxPriceDifference : ℚ)
    (sources : List SourceImpl) (skinName : String) (weapon : Option String)
    (prices : List SkinPrice) : List Opportunity :=
  if prices.length < 2 then []
  else
    sortDescBy (fun o => o.netProfit)
      ((groupByKey (fun p => createItemKey p weapon skinName) prices).filterMap
        (fun g => processGroup minProfitThreshold maxPriceDifference sources skinName weapon g.2))

/-- A persisted price row as consumed by `PriceMonitor._analyze_skin_arbitrage`
(after its recency/availability query): marketplace label and price. -/
structure PriceRow where
  marketplace : String
  price : ℚ
deriving DecidableEq, Repr

/-- The candidate assembled by `PriceMonitor._analyze_skin_arbitrage` before
the ledger upsert. -/
structure Candidate where
  buyMarketplace : String
  sellMarketplace : String
  buyPrice : ℚ
  sellPrice : ℚ
  profitAmount : ℚ
  profitPercentage : ℚ
  fees : ℚ
  netProfit : ℚ
deriving DecidableEq, Repr

/-- The `buy_marketplace` scan of `_analyze_skin_arbitrage` (lines 206-211):
iterate the marketplace groups and keep the LAST marketplace whose cheapest
price equals the global minimum. -/
def buyMarketplaceScan (rows : List PriceRow) : Option String :=
  (groupByKey (fun p => p.marketplace) rows).foldl
    (fun acc g =>
      if pyMinQ (g.2.map (fun r => r.price)) = pyMinQ (rows.map (fun r => r.price))
      then some g.1 else acc)
    none

/-- The `sell_marketplace` scan of `_analyze_skin_arbitrage` (lines 209-213):
the LAST marketplace whose dearest price equals the global maximum. -/
def sellMarketplaceScan (rows : List PriceRow) : Option String :=
  (groupByKey (fun p => p.marketplace) rows).foldl
    (fun acc g =>
      if pyMaxQ (g.2.map (fun r => r.price)) = pyMaxQ (rows.map (fun r => r.price))
      then some g.1 else acc)
    none

/-- The candidate record built by `_analyze_skin_arbitrage` from the global
minimum and maximum prices. -/
def mkCandidate (sources : List SourceImpl) (bm sm : String) (minPrice maxPrice : ℚ) :
    Candidate :=
  { buyMarketplace := bm
    sellMarketplace := sm
    buyPrice := minPrice
    sellPrice := maxPrice
    profitAmount := maxPrice - minPrice
    profitPercentage := (maxPrice - minPrice) / minPrice * 100
    fees := getMarketplaceFees sources bm minPrice + getMarketplaceFees sources sm maxPrice
    netProfit := (maxPrice - minPrice) -
      (getMarketplaceFees sources bm minPrice + getMarketplaceFees sources sm maxPrice) }

/-- Analysis of `PriceMonitor._analyze_skin_arbitrage` (lines 176-235), up to the ledger
upsert: the buy price is the global minimum over ALL rows and the sell price
the global maximum over ALL rows; `if not buy or not sell or buy == sell`
discards `None` and empty marketplace labels as well as same-marketplace
pairs; then the spread, percentage and net-profit gates apply.  Note the
spread gate runs before the marketplace scan, as in the source. -/
def analyzeSkinArbitrage (minProfitThreshold maxPriceDifference : ℚ)
    (sources : List SourceImpl) (rows : List PriceRow) : Option Candidate :=
  if rows.length < 2 then none
  else
    if pyMaxQ (rows.map (fun r => r.price)) - pyMinQ (rows.map (fun r => r.price)) <
        maxPriceDifference then none
    else
      match buyMarketplaceScan rows, sellMarketplaceScan rows with
      | some bm, some sm =>
        if bm = "" ∨ sm = "" ∨ bm = sm then none
        else if (pyMaxQ (rows.map (fun r => r.price)) - pyMinQ (rows.map (fun r => r.price))) /
            pyMinQ (rows.map (fun r => r.price)) * 100 < minProfitThreshold then none
        else if (pyMaxQ (rows.map (fun r => r.price)) - pyMinQ (rows.map (fun r => r.price))) -
            (getMarketplaceFees sources bm (pyMinQ (rows.map (fun r => r.price))) +
              getMarketplaceFees sources sm (pyMaxQ (rows.map (fun r => r.price)))) ≤ 0 then none
        else some (mkCandidate sources bm sm (pyMinQ (rows.map (fun r => r.price)))
          (pyMaxQ (rows.map (fun r => r.price))))
      | _, _ => none

/-- A persisted `ArbitrageOpportunity` row (`src/models/skin.py`), with the
detection timestamp abstracted to a natural number. -/
structure OppRow where
  skinId : ℕ
  buyMarketplace : String
  sellMarketplace : String
  buyPrice : ℚ
  sellPrice : ℚ
  profitAmount : ℚ
  profitPercentage : ℚ
  fees : ℚ
  netProfit : ℚ
  detectedAt : ℕ
  isActive : Bool
deriving DecidableEq, Repr

/-- The lookup filter of the upsert in `_analyze_skin_arbitrage` (lines
238-243): same skin, same buy and sell marketplaces, still active. -/
def rowMatches (skinId : ℕ) (bm sm : String) (r : OppRow) : Bool :=
  r.skinId = skinId && r.buyMarketplace = bm && r.sellMarketplace = sm && r.isActive

/-- Refresh of an existing row (lines 245-253): price, profit and fee fields
overwritten, detection timestamp bumped; identity and active flag untouched. -/
def updateRow (r : OppRow) (c : Candidate) (now : ℕ) : OppRow :=
  { r with
    buyPrice := c.buyPrice
    sellPrice := c.sellPrice
    profitAmount := c.profitAmount
    profitPercentage := c.profitPercentage
    fees := c.fees
    netProfit := c.netProfit
    detectedAt := now }

/-- A freshly inserted row (lines 254-267); `is_active` and `detected_at`
take their column defaults (`True`, now). -/
def newRow (skinId : ℕ) (c : Candidate) (now : ℕ) : OppRow :=
  { skinId := skinId
    buyMarketplace := c.buyMarketplace
    sellMarketplace := c.sellMarketplace
    buyPrice := c.buyPrice
    sellPrice := c.sellPrice
    profitAmount := c.profitAmount
    profitPercentage := c.profitPercentage
    fees := c.fees
    netProfit := c.netProfit
    detectedAt := now
    isActive := true }

/-- The ledger upsert of `_analyze_skin_arbitrage` (lines 237-269): update
the first active row matching the (skin, buy, sell) triple in place, or
append a new active row when none matches. -/
def upsertOpportunity (skinId : ℕ) (c : Candidate) (now : ℕ) : List OppRow → List OppRow
  | [] => [newRow skinId c now]
  | r :: rest =>
    if rowMatches skinId c.buyMarketplace c.sellMarketplace r
    then updateRow r c now :: rest
    else r :: upsertOpportunity skinId c now rest

/-- Query of `PriceMonitor.get_current_opportunities` (lines 292-302): active rows,
ordered by net profit descending, first 50. -/
def getCurrentOpportunities (db : List OppRow) : List OppRow :=
  (sortDescBy (fun r => r.netProfit) (db.filter (fun r => r.isActive))).take 50

/-- The `/opportunities` query of `src/api/routes.py` (lines 54-76): active
rows whose profit percentage lies in the requested range, ordered by net
profit descending, capped at the requested limit. -/
def queryActiveOpportunities (db : List OppRow) (minProfit maxProfit : ℚ) (limit : ℕ) :
    List OppRow :=
  (sortDescBy (fun r => r.netProfit)
    (db.filter (fun r =>
      r.isActive && decide (minProfit ≤ r.profitPercentage) &&
        decide (r.profitPercentage ≤ maxProfit)))).take limit

/-- The post-detection filter and sort of the stateless `/opportunities`
endpoint (`src/api/routes_simple.py` lines 78-85). -/
def filterOpportunitiesByProfit (opps : List Opportunity) (minProfit maxProfit : ℚ) :
    List Opportunity :=
  sortDescBy (fun o => o.netProfit)
    (opps.filter (fun o =>
      decide (minProfit ≤ o.profitPercentage) && decide (o.profitPercentage ≤ maxProfit)))

/-- Outcome of one `_monitor_prices` cycle body: either it (and the ensuing
interval sleep) completed, or an exception escaped it. -/
inductive CycleResult where
  | ok : CycleResult
  | err : CycleResult
deriving DecidableEq, Repr

/-- Sleep performed after cycle `i` in `start_monitoring`: the configured
update interval on success, the fixed 60-second backoff when an exception was
caught (lines 53-59). -/
def cycleSleep (interval : ℕ) (r : CycleResult) : ℕ :=
  match r with
  | CycleResult.ok => interval
  | CycleResult.err => 60

/-- The `while self.is_running` loop of `PriceMonitor.start_monitoring`,
as the trace of executed iterations.  `running i` is the value of the
`is_running` flag observed at the TOP of iteration `i` (cleared
asynchronously by `stop_monitoring`); `outcome i` tells whether iteration
`i`'s cycle raised.  Each executed iteration is recorded with the sleep that
followed it; `fuel` bounds the observation window. -/
def monitorLoop (interval : ℕ) (running : ℕ → Bool) (outcome : ℕ → CycleResult) :
    ℕ → ℕ → List (ℕ × ℕ)
  | 0, _ => []
  | fuel + 1, i =>
    if running i
    then (i, cycleSleep interval (outcome i)) :: monitorLoop interval running outcome fuel (i + 1)
    else []

/-- Entry point `start_monitoring`: run the loop from iteration 0. -/
def startMonitoring (interval : ℕ) (running : ℕ → Bool) (outcome : ℕ → CycleResult)
    (fuel : ℕ) : List (ℕ × ℕ) :=
  monitorLoop interval running outcome fuel 0

/-- Demo quote: identity (AK-47 Redline, Factory New) on marketplace `A` at 10. -/
def demoQuoteA : SkinPrice :=
  { marketplace := "A", price := 10, listingCount := 1, url := "ua", condition := "Factory New" }

/-- Demo quote: the same identity on marketplace `B` at 16. -/
def demoQuoteB : SkinPrice :=
  { marketplace := "B", price := 16, listingCount := 1, url := "ub", condition := "Factory New" }

/-- Demo quote on the CSFloat marketplace at 100. -/
def demoQuoteCsfloat : SkinPrice :=
  { marketplace := "CSFloat", price := 100, listingCount := 1, url := "uc", condition := "Factory New" }

/-- Demo quote on the Steam marketplace at 200. -/
def demoQuoteSteam : SkinPrice :=
  { marketplace := "Steam", price := 200, listingCount := 1, url := "us", condition := "Factory New" }

/-- The configured registry of the monitor (`_init_marketplaces`): CSFloat
then Steam, with their fee schedules; searches stubbed empty as they are
external I/O. -/
def demoRegistry : List SourceImpl :=
  [{ name := "CSFloat", fee := csfloatGetFees, search := fun _ _ => Except.ok [] },
   { name := "Steam", fee := steamGetFees, search := fun _ _ => Except.ok [] }]

/-- A source that raises on every call. -/
def badSource : SourceImpl :=
  { name := "Bad", fee := fun _ => 0, search := fun _ _ => Except.error "boom" }

/-- A healthy source returning one quote. -/
def goodSource : SourceImpl :=
  { name := "Good", fee := fun _ => 0, search := fun _ _ => Except.ok [demoQuoteA] }

/-- A second healthy source returning one quote. -/
def goodSourceB : SourceImpl :=
  { name := "GoodB", fee := fun _ => 0, search := fun _ _ => Except.ok [demoQuoteB] }

/-- Price rows where marketplace `B` also carries a dearer listing. -/
def rowsWithHighSell : List PriceRow :=
  [{ marketplace := "A", price := 10 }, { marketplace := "B", price := 100 },
   { marketplace := "B", price := 200 }]

/-- A quote with a missing (empty) condition. -/
def quoteNoCondition : SkinPrice :=
  { marketplace := "CSFloat", price := 10, listingCount := 1 }

/-- Demo detection candidate for the ledger: buy `A` at 10, sell `B` at 16. -/
def demoCandidate : Candidate :=
  { buyMarketplace := "A", sellMarketplace := "B", buyPrice := 10, sellPrice := 16,
    profitAmount := 6, profitPercentage := 60, fees := 0, netProfit := 6 }

/-- A later candidate for the same triple with different prices. -/
def demoCandidateLater : Candidate :=
  { buyMarketplace := "A", sellMarketplace := "B", buyPrice := 11, sellPrice := 18,
    profitAmount := 7, profitPercentage := 70, fees := 0, netProfit := 7 }

/-- A running flag that is cleared before iteration 2. -/
def runTwoCycles (i : ℕ) : Bool := decide (i < 2)

/-- Cycle outcomes: the first cycle raises, the second completes. -/
def firstCycleRaises (i : ℕ) : CycleResult :=
  if i = 0 then CycleResult.err else CycleResult.ok

/-- Two quotes on one marketplace tied at the minimum price, with distinct
listing URLs, followed by a dearer one. -/
def tiedQuotes : List SkinPrice :=
  [{ marketplace := "A", price := 5, url := "first" },
   { marketplace := "A", price := 5, url := "second" },
   { marketplace := "A", price := 7, url := "third" }]

/- ------------------------------------------------------------------ -/
/- Helper lemmas.                                                      -/
/- ------------------------------------------------------------------ -/

theorem mem_insertDescBy {α : Type} (key : α → ℚ) (x z : α) :
    ∀ l : List α, z ∈ insertDescBy key x l ↔ z = x ∨ z ∈ l := by
  intro l
  induction l with
  | nil => simp [insertDescBy]
  | cons y ys ih =>
    by_cases h : key x < key y
    · simp only [insertDescBy, if_pos h, List.mem_cons, ih]
      tauto
    · simp only [insertDescBy, if_neg h, List.mem_cons]

theorem mem_sortDescBy {α : Type} (key : α → ℚ) (z : α) :
    ∀ l : List α, z ∈ sortDescBy key l ↔ z ∈ l := by
  intro l
  induction l with
  | nil => simp [sortDescBy]
  | cons y ys ih =>
    simp only [sortDescBy, List.foldr_cons, List.mem_cons]
    rw [show List.foldr (insertDescBy key) [] ys = sortDescBy key ys from rfl]
    rw [mem_insertDescBy, ih]

theorem pairwise_insertDescBy {α : Type} (key : α → ℚ) (x : α) (l : List α)
    (h : List.Pairwise (fun a b => key b ≤ key a) l) :
    List.Pairwise (fun a b => key b ≤ key a) (insertDescBy key x l) := by
  induction l with
  | nil => simp [insertDescBy]
  | cons y ys ih =>
    rcases List.pairwise_cons.mp h with ⟨hy, hys⟩
    by_cases hlt : key x < key y
    · rw [insertDescBy, if_pos hlt]
      refine List.pairwise_cons.mpr ⟨?_, ih hys⟩
      intro z hz
      rcases (mem_insertDescBy key x z ys).mp hz with rfl | hz'
      · exact le_of_lt hlt
      · exact hy z hz'
    · rw [insertDescBy, if_neg hlt]
      refine List.pairwise_cons.mpr ⟨?_, h⟩
      intro z hz
      rcases List.mem_cons.mp hz with rfl | hz'
      · exact le_of_not_lt hlt
      · exact le_trans (hy z hz') (le_of_not_lt hlt)

theorem pairwise_sortDescBy {α : Type} (key : α → ℚ) (l : List α) :
    List.Pairwise (fun a b => key b ≤ key a) (sortDescBy key l) := by
  induction l with
  | nil => simp [sortDescBy]
  | cons y ys ih => exact pairwise_insertDescBy key y (sortDescBy key ys) ih

theorem groupOf_nil {α : Type} (k : String) : groupOf k ([] : List (String × List α)) = [] := by
  simp [groupOf]

theorem groupOf_cons {α : Type} (k k₀ : String) (xs : List α) (rest : List (String × List α)) :
    groupOf k ((k₀, xs) :: rest) = if k₀ = k then xs else groupOf k rest := by
  by_cases h : k₀ = k
  · rw [if_pos h]
    unfold groupOf
    rw [List.find?_cons_of_pos _ (by simpa using h)]
  · rw [if_neg h]
    unfold groupOf
    rw [List.find?_cons_of_neg _ (by simpa using h)]

theorem groupOf_insertGrouped {α : Type} (k k' : String) (x : α) :
    ∀ gs : List (String × List α),
      groupOf k (insertGrouped k' x gs) = groupOf k gs ++ (if k' = k then [x] else []) := by
  intro gs
  induction gs with
  | nil =>
    rw [show insertGrouped k' x ([] : List (String × List α)) = [(k', [x])] from rfl,
      groupOf_cons, groupOf_nil]
    by_cases h : k' = k
    · simp [h]
    · simp [h]
  | cons g rest ih =>
    obtain ⟨k₀, xs⟩ := g
    rw [show insertGrouped k' x ((k₀, xs) :: rest) =
        (if k' = k₀ then (k₀, xs ++ [x]) :: rest else (k₀, xs) :: insertGrouped k' x rest)
      from rfl]
    by_cases h0 : k' = k₀
    · rw [if_pos h0, groupOf_cons, groupOf_cons]
      by_cases hk : k₀ = k
      · rw [if_pos hk, if_pos hk, if_pos (h0.trans hk)]
      · rw [if_neg hk, if_neg hk, if_neg (fun hk' => hk (h0.symm.trans hk'))]
        simp
    · rw [if_neg h0, groupOf_cons, groupOf_cons]
      by_cases hk : k₀ = k
      · rw [if_pos hk, if_pos hk, if_neg (fun hk' => h0 (hk'.trans hk.symm))]
        simp
      · rw [if_neg hk, if_neg hk, ih]

theorem groupOf_groupByKey_aux {α : Type} (key : α → String) (k : String) :
    ∀ (l : List α) (acc : List (String × List α)),
      groupOf k (l.foldl (fun a x => insertGrouped (key x) x a) acc) =
        groupOf k acc ++ l.filter (fun x => decide (key x = k)) := by
  intro l
  induction l with
  | nil => intro acc; simp
  | cons x xs ih =>
    intro acc
    rw [List.foldl_cons, ih, groupOf_insertGrouped]
    by_cases h : key x = k
    · simp [List.filter_cons, h, List.append_assoc]
    · simp [List.filter_cons, h]

/-- Grouping preserves the input order inside every group: the members of
group `k` are exactly the input elements keyed `k`, in input order. -/
theorem groupOf_groupByKey {α : Type} (key : α → String) (k : String) (l : List α) :
    groupOf k (groupByKey key l) = l.filter (fun x => decide (key x = k)) := by
  have h := groupOf_groupByKey_aux key k l []
  rw [groupByKey, h, groupOf_nil, List.nil_append]

theorem pickMin_cons (p q : SkinPrice) (qs : List SkinPrice) :
    pickMin p (q :: qs) = pickMin (if q.price < p.price then q else p) qs := by
  simp only [pickMin, List.foldl_cons]

theorem pickMax_cons (p q : SkinPrice) (qs : List SkinPrice) :
    pickMax p (q :: qs) = pickMax (if p.price < q.price then q else p) qs := by
  simp only [pickMax, List.foldl_cons]

theorem pickMin_mem : ∀ (ps : List SkinPrice) (p : SkinPrice), pickMin p ps ∈ p :: ps := by
  intro ps
  induction ps with
  | nil => intro p; simp [pickMin]
  | cons q qs ih =>
    intro p
    rw [pickMin_cons]
    by_cases h : q.price < p.price
    · rw [if_pos h]
      rcases List.mem_cons.mp (ih q) with h' | h'
      · exact List.mem_cons.mpr (Or.inr (List.mem_cons.mpr (Or.inl h')))
      · exact List.mem_cons.mpr (Or.inr (List.mem_cons.mpr (Or.inr h')))
    · rw [if_neg h]
      rcases List.mem_cons.mp (ih p) with h' | h'
      · exact List.mem_cons.mpr (Or.inl h')
      · exact List.mem_cons.mpr (Or.inr (List.mem_cons.mpr (Or.inr h')))

theorem pickMin_le : ∀ (ps : List SkinPrice) (p : SkinPrice),
    ∀ x ∈ p :: ps, (pickMin p ps).price ≤ x.price := by
  intro ps
  induction ps with
  | nil =>
    intro p x hx
    rcases List.mem_cons.mp hx with rfl | h
    · simp [pickMin]
    · simp at h
  | cons r rs ih =>
    intro p x hx
    rw [pickMin_cons]
    by_cases h : r.price < p.price
    · rw [if_pos h]
      rcases List.mem_cons.mp hx with rfl | hx'
      · exact le_trans (ih r r (List.mem_cons.mpr (Or.inl rfl))) (le_of_lt h)
      · exact ih r x hx'
    · rw [if_neg h]
      rcases List.mem_cons.mp hx with rfl | hx'
      · exact ih x x (List.mem_cons.mpr (Or.inl rfl))
      · rcases List.mem_cons.mp hx' with rfl | hx''
        · exact le_trans (ih p p (List.mem_cons.mpr (Or.inl rfl))) (le_of_not_lt h)
        · exact ih p x (List.mem_cons.mpr (Or.inr hx''))

theorem pickMax_mem : ∀ (ps : List SkinPrice) (p : SkinPrice), pickMax p ps ∈ p :: ps := by
  intro ps
  induction ps with
  | nil => intro p; simp [pickMax]
  | cons q qs ih =>
    intro p
    rw [pickMax_cons]
    by_cases h : p.price < q.price
    · rw [if_pos h]
      rcases List.mem_cons.mp (ih q) with h' | h'
      · exact List.mem_cons.mpr (Or.inr (List.mem_cons.mpr (Or.inl h')))
      · exact List.mem_cons.mpr (Or.inr (List.mem_cons.mpr (Or.inr h')))
    · rw [if_neg h]
      rcases List.mem_cons.mp (ih p) with h' | h'
      · exact List.mem_cons.mpr (Or.inl h')
      · exact List.mem_cons.mpr (Or.inr (List.mem_cons.mpr (Or.inr h')))

theorem pickMax_ge : ∀ (ps : List SkinPrice) (p : SkinPrice),
    ∀ x ∈ p :: ps, x.price ≤ (pickMax p ps).price := by
  intro ps
  induction ps with
  | nil =>
    intro p x hx
    rcases List.mem_cons.mp hx with rfl | h
    · simp [pickMax]
    · simp at h
  | cons r rs ih =>
    intro p x hx
    rw [pickMax_cons]
    by_cases h : p.price < r.price
    · rw [if_pos h]
      rcases List.mem_cons.mp hx with rfl | hx'
      · exact le_trans (le_of_lt h) (ih r r (List.mem_cons.mpr (Or.inl rfl)))
      · exact ih r x hx'
    · rw [if_neg h]
      rcases List.mem_cons.mp hx with rfl | hx'
      · exact ih x x (List.mem_cons.mpr (Or.inl rfl))
      · rcases List.mem_cons.mp hx' with rfl | hx''
        · exact le_trans (le_of_not_lt h) (ih p p (List.mem_cons.mpr (Or.inl rfl)))
        · exact ih p x (List.mem_cons.mpr (Or.inr hx''))

theorem minByPrice_mem {l : List SkinPrice} {m : SkinPrice} (h : minByPrice l = some m) :
    m ∈ l := by
  cases l with
  | nil => simp [minByPrice] at h
  | cons p ps =>
    rw [minByPrice] at h
    injection h with h
    exact h ▸ pickMin_mem ps p

theorem minByPrice_le {l : List SkinPrice} {m : SkinPrice} (h : minByPrice l = some m) :
    ∀ q ∈ l, m.price ≤ q.price := by
  cases l with
  | nil => simp [minByPrice] at h
  | cons p ps =>
    rw [minByPrice] at h
    injection h with h
    exact h ▸ pickMin_le ps p

theorem maxByPrice_mem {l : List SkinPrice} {m : SkinPrice} (h : maxByPrice l = some m) :
    m ∈ l := by
  cases l with
  | nil => simp [maxByPrice] at h
  | cons p ps =>
    rw [maxByPrice] at h
    injection h with h
    exact h ▸ pickMax_mem ps p

theorem maxByPrice_ge {l : List SkinPrice} {m : SkinPrice} (h : maxByPrice l = some m) :
    ∀ q ∈ l, q.price ≤ m.price := by
  cases l with
  | nil => simp [maxByPrice] at h
  | cons p ps =>
    rw [maxByPrice] at h
    injection h with h
    exact h ▸ pickMax_ge ps p

/-- `pickMin` returns the FIRST element attaining the minimum price: the list
splits into a strictly-dearer prefix, the selected quote, and a no-cheaper
suffix. -/
theorem pickMin_first : ∀ (ps : List SkinPrice) (p : SkinPrice),
    ∃ l₁ l₂, p :: ps = l₁ ++ pickMin p ps :: l₂ ∧
      (∀ q ∈ l₁, (pickMin p ps).price < q.price) ∧
      (∀ q ∈ l₂, (pickMin p ps).price ≤ q.price) := by
  intro ps
  induction ps with
  | nil =>
    intro p
    exact ⟨[], [], by simp [pickMin], by simp, by simp⟩
  | cons q qs ih =>
    intro p
    rw [pickMin_cons]
    by_cases h : q.price < p.price
    · rw [if_pos h]
      obtain ⟨l₁, l₂, hsplit, hlt, hle⟩ := ih q
      refine ⟨p :: l₁, l₂, ?_, ?_, hle⟩
      · rw [List.cons_append, ← hsplit]
      · intro z hz
        rcases List.mem_cons.mp hz with rfl | hz'
        · exact lt_of_le_of_lt (pickMin_le qs q q (List.mem_cons.mpr (Or.inl rfl))) h
        · exact hlt z hz'
    · rw [if_neg h]
      obtain ⟨l₁, l₂, hsplit, hlt, hle⟩ := ih p
      cases l₁ with
      | nil =>
        rw [List.nil_append] at hsplit
        injection hsplit with h1 h2
        refine ⟨[], q :: l₂, ?_, by simp, ?_⟩
        · rw [List.nil_append, ← h1, ← h2]
        · intro z hz
          rcases List.mem_cons.mp hz with rfl | hz'
          · rw [← h1]
            exact le_of_not_lt h
          · exact hle z hz'
      | cons a t =>
        rw [List.cons_append] at hsplit
        injection hsplit with h1 h2
        refine ⟨p :: q :: t, l₂, ?_, ?_, hle⟩
        · rw [List.cons_append, List.cons_append, ← h2]
        · intro z hz
          rcases List.mem_cons.mp hz with rfl | hz'
          · have ha := hlt a (List.mem_cons.mpr (Or.inl rfl))
            rw [← h1] at ha
            exact ha
          · rcases List.mem_cons.mp hz' with rfl | hz''
            · calc (pickMin p qs).price < a.price := hlt a (List.mem_cons.mpr (Or.inl rfl))
                _ = p.price := by rw [← h1]
                _ ≤ z.price := le_of_not_lt h
            · exact hlt z (List.mem_cons.mpr (Or.inr hz''))

/-- The first element attaining the minimum price is selected. -/
theorem minByPrice_first {l : List SkinPrice} {m : SkinPrice} (h : minByPrice l = some m) :
    ∃ l₁ l₂, l = l₁ ++ m :: l₂ ∧ (∀ q ∈ l₁, m.price < q.price) ∧
      (∀ q ∈ l₂, m.price ≤ q.price) := by
  cases l with
  | nil => simp [minByPrice] at h
  | cons p ps =>
    rw [minByPrice] at h
    injection h with h
    exact h ▸ pickMin_first ps p

theorem foldlMin_le : ∀ (l : List ℚ) (a : ℚ), l.foldl min a ≤ a ∧ ∀ x ∈ l, l.foldl min a ≤ x := by
  intro l
  induction l with
  | nil => intro a; exact ⟨le_refl a, by simp⟩
  | cons y ys ih =>
    intro a
    rw [List.foldl_cons]
    obtain ⟨h1, h2⟩ := ih (min a y)
    refine ⟨le_trans h1 (min_le_left a y), ?_⟩
    intro x hx
    rcases List.mem_cons.mp hx with rfl | hx'
    · exact le_trans h1 (min_le_right a x)
    · exact h2 x hx'

theorem foldlMax_ge : ∀ (l : List ℚ) (a : ℚ), a ≤ l.foldl max a ∧ ∀ x ∈ l, x ≤ l.foldl max a := by
  intro l
  induction l with
  | nil => intro a; exact ⟨le_refl a, by simp⟩
  | cons y ys ih =>
    intro a
    rw [List.foldl_cons]
    obtain ⟨h1, h2⟩ := ih (max a y)
    refine ⟨le_trans (le_max_left a y) h1, ?_⟩
    intro x hx
    rcases List.mem_cons.mp hx with rfl | hx'
    · exact le_trans (le_max_right a x) h1
    · exact h2 x hx'

theorem pyMinQ_le {l : List ℚ} : ∀ x ∈ l, pyMinQ l ≤ x := by
  cases l with
  | nil => simp
  | cons a l =>
    intro x hx
    rcases List.mem_cons.mp hx with rfl | hx'
    · exact (foldlMin_le l x).1
    · exact (foldlMin_le l a).2 x hx'

theorem pyMaxQ_ge {l : List ℚ} : ∀ x ∈ l, x ≤ pyMaxQ l := by
  cases l with
  | nil => simp
  | cons a l =>
    intro x hx
    rcases List.mem_cons.mp hx with rfl | hx'
    · exact (foldlMax_ge l x).1
    · exact (foldlMax_ge l a).2 x hx'

/-- Inversion of the per-group analysis: an emitted opportunity arises from
the min and max of the per-marketplace cheapest quotes, on distinct
marketplaces, with all four gates passed, and is exactly the record built
from those two quotes. -/
theorem processGroup_eq_some {mt md : ℚ} {srcs : List SourceImpl} {skin : String}
    {w : Option String} {ps : List SkinPrice} {opp : Opportunity}
    (h : processGroup mt md srcs skin w ps = some opp) :
    ∃ lo hi, minByPrice (perMarketplaceLowest ps) = some lo ∧
      maxByPrice (perMarketplaceLowest ps) = some hi ∧
      lo.marketplace ≠ hi.marketplace ∧
      md ≤ hi.price - lo.price ∧
      mt ≤ (hi.price - lo.price) / lo.price * 100 ∧
      0 < (hi.price - lo.price) -
        (getMarketplaceFees srcs lo.marketplace lo.price +
          getMarketplaceFees srcs hi.marketplace hi.price) ∧
      opp = mkOpportunity srcs skin w lo hi := by
  unfold processGroup at h
  by_cases h1 : ps.length < 2
  · rw [if_pos h1] at h
    exact absurd h (by simp)
  rw [if_neg h1] at h
  by_cases h2 : (perMarketplaceLowest ps).length < 2
  · rw [if_pos h2] at h
    exact absurd h (by simp)
  rw [if_neg h2] at h
  rcases hmin : minByPrice (perMarketplaceLowest ps) with _ | lo <;>
    rcases hmax : maxByPrice (perMarketplaceLowest ps) with _ | hi <;>
      rw [hmin, hmax] at h <;> simp only [] at h
  · exact absurd h (by simp)
  · exact absurd h (by simp)
  · exact absurd h (by simp)
  · by_cases h3 : lo.marketplace = hi.marketplace
    · rw [if_pos h3] at h
      exact absurd h (by simp)
    rw [if_neg h3] at h
    by_cases h4 : hi.price - lo.price < md
    · rw [if_pos h4] at h
      exact absurd h (by simp)
    rw [if_neg h4] at h
    by_cases h5 : (hi.price - lo.price) / lo.price * 100 < mt
    · rw [if_pos h5] at h
      exact absurd h (by simp)
    rw [if_neg h5] at h
    by_cases h6 : (hi.price - lo.price) -
        (getMarketplaceFees srcs lo.marketplace lo.price +
          getMarketplaceFees srcs hi.marketplace hi.price) ≤ 0
    · rw [if_pos h6] at h
      exact absurd h (by simp)
    rw [if_neg h6] at h
    injection h with h
    exact ⟨lo, hi, rfl, rfl, h3, not_lt.mp h4, not_lt.mp h5, not_le.mp h6, h.symm⟩

/-- When the cheapest and dearest of the per-marketplace cheapest quotes sit
on the same marketplace, the group is discarded. -/
theorem processGroup_same_marketplace {mt md : ℚ} {srcs : List SourceImpl} {skin : String}
    {w : Option String} {ps : List SkinPrice} {lo hi : SkinPrice}
    (hmin : minByPrice (perMarketplaceLowest ps) = some lo)
    (hmax : maxByPrice (perMarketplaceLowest ps) = some hi)
    (hsame : lo.marketplace = hi.marketplace) :
    processGroup mt md srcs skin w ps = none := by
  unfold processGroup
  by_cases h1 : ps.length < 2
  · rw [if_pos h1]
  · rw [if_neg h1]
    by_cases h2 : (perMarketplaceLowest ps).length < 2
    · rw [if_pos h2]
    · rw [if_neg h2, hmin, hmax]
      simp only []
      rw [if_pos hsame]

/-- Every emitted opportunity of the stateless path comes from the per-group
analysis of some item group. -/
theorem mem_findArbitrage {mt md : ℚ} {srcs : List SourceImpl} {skin : String}
    {w : Option String} {prices : List SkinPrice} {opp : Opportunity}
    (h : opp ∈ findArbitrageOpportunities mt md srcs skin w prices) :
    ∃ g ∈ groupByKey (fun p => createItemKey p w skin) prices,
      processGroup mt md srcs skin w g.2 = some opp := by
  unfold findArbitrageOpportunities at h
  by_cases h1 : prices.length < 2
  · rw [if_pos h1] at h
    simp at h
  · rw [if_neg h1] at h
    rw [mem_sortDescBy] at h
    rcases List.mem_filterMap.mp h with ⟨g, hg, hpg⟩
    exact ⟨g, hg, hpg⟩

/-- Inversion of the persisted-path analysis: an upsert candidate takes its
buy price from the global minimum and its sell price from the global maximum
over ALL recent rows, on distinct, nonempty marketplace labels, with all
gates passed. -/
theorem analyzeSkinArbitrage_eq_some {mt md : ℚ} {srcs : List SourceImpl}
    {rows : List PriceRow} {c : Candidate}
    (h : analyzeSkinArbitrage mt md srcs rows = some c) :
    ∃ bm sm, buyMarketplaceScan rows = some bm ∧ sellMarketplaceScan rows = some sm ∧
      bm ≠ "" ∧ sm ≠ "" ∧ bm ≠ sm ∧
      md ≤ pyMaxQ (rows.map (fun r => r.price)) - pyMinQ (rows.map (fun r => r.price)) ∧
      mt ≤ (pyMaxQ (rows.map (fun r => r.price)) - pyMinQ (rows.map (fun r => r.price))) /
        pyMinQ (rows.map (fun r => r.price)) * 100 ∧
      0 < (pyMaxQ (rows.map (fun r => r.price)) - pyMinQ (rows.map (fun r => r.price))) -
        (getMarketplaceFees srcs bm (pyMinQ (rows.map (fun r => r.price))) +
          getMarketplaceFees srcs sm (pyMaxQ (rows.map (fun r => r.price)))) ∧
      c = mkCandidate srcs bm sm (pyMinQ (rows.map (fun r => r.price)))
        (pyMaxQ (rows.map (fun r => r.price))) := by
  unfold analyzeSkinArbitrage at h
  by_cases h1 : rows.length < 2
  · rw [if_pos h1] at h
    exact absurd h (by simp)
  rw [if_neg h1] at h
  by_cases h2 : pyMaxQ (rows.map (fun r => r.price)) - pyMinQ (rows.map (fun r => r.price)) < md
  · rw [if_pos h2] at h
    exact absurd h (by simp)
  rw [if_neg h2] at h
  rcases hbuy : buyMarketplaceScan rows with _ | bm <;>
    rcases hsell : sellMarketplaceScan rows with _ | sm <;>
      rw [hbuy, hsell] at h <;> simp only [] at h
  · exact absurd h (by simp)
  · exact absurd h (by simp)
  · exact absurd h (by simp)
  · by_cases h3 : bm = "" ∨ sm = "" ∨ bm = sm
    · rw [if_pos h3] at h
      exact absurd h (by simp)
    rw [if_neg h3] at h
    push_neg at h3
    obtain ⟨h3a, h3b, h3c⟩ := h3
    by_cases h4 : (pyMaxQ (rows.map (fun r => r.price)) - pyMinQ (rows.map (fun r => r.price))) /
        pyMinQ (rows.map (fun r => r.price)) * 100 < mt
    · rw [if_pos h4] at h
      exact absurd h (by simp)
    rw [if_neg h4] at h
    by_cases h5 : (pyMaxQ (rows.map (fun r => r.price)) - pyMinQ (rows.map (fun r => r.price))) -
        (getMarketplaceFees srcs bm (pyMinQ (rows.map (fun r => r.price))) +
          getMarketplaceFees srcs sm (pyMaxQ (rows.map (fun r => r.price)))) ≤ 0
    · rw [if_pos h5] at h
      exact absurd h (by simp)
    rw [if_neg h5] at h
    injection h with h
    exact ⟨bm, sm, rfl, rfl, h3a, h3b, h3c, not_lt.mp h2, not_lt.mp h4, not_le.mp h5, h.symm⟩

theorem searchSkinManual_foldl (q : String) (w : Option String) :
    ∀ (srcs : List SourceImpl) (acc : List SkinPrice),
      List.foldl (fun a mp => match mp.search q w with
        | Except.ok ps => a ++ ps
        | Except.error _ => a) acc srcs
      = acc ++ searchSkinManual srcs q w := by
  intro srcs
  induction srcs with
  | nil =>
    intro acc
    simp [searchSkinManual]
  | cons s ss ih =>
    intro acc
    rw [searchSkinManual]
    simp only [List.foldl_cons]
    cases hs : s.search q w with
    | ok ps =>
      simp only [hs]
      rw [ih (acc ++ ps), ih ([] ++ ps)]
      simp [List.append_assoc]
    | error e =>
      simp only [hs]
      rw [ih acc, ih []]
      simp

/-- One aggregation step: a successful source contributes its quotes, a
raising source contributes nothing. -/
theorem searchSkinManual_cons (q : String) (w : Option String) (s : SourceImpl)
    (srcs : List SourceImpl) :
    searchSkinManual (s :: srcs) q w =
      (match s.search q w with
        | Except.ok ps => ps
        | Except.error _ => []) ++ searchSkinManual srcs q w := by
  rw [searchSkinManual]
  simp only [List.foldl_cons]
  cases hs : s.search q w with
  | ok ps =>
    simp only [hs]
    rw [searchSkinManual_foldl q w srcs ([] ++ ps)]
    simp
  | error e =>
    simp only [hs]
    rw [searchSkinManual_foldl q w srcs []]

theorem searchSkinManual_append (q : String) (w : Option String) (s₁ s₂ : List SourceImpl) :
    searchSkinManual (s₁ ++ s₂) q w = searchSkinManual s₁ q w ++ searchSkinManual s₂ q w := by
  induction s₁ with
  | nil => simp [searchSkinManual]
  | cons s ss ih =>
    rw [List.cons_append, searchSkinManual_cons, searchSkinManual_cons, ih, List.append_assoc]

theorem upsertOpportunity_no_match {skinId : ℕ} {c : Candidate} {now : ℕ} :
    ∀ {db : List OppRow},
      (∀ r ∈ db, rowMatches skinId c.buyMarketplace c.sellMarketplace r = false) →
      upsertOpportunity skinId c now db = db ++ [newRow skinId c now] := by
  intro db
  induction db with
  | nil => intro _; rfl
  | cons r rest ih =>
    intro hall
    have hr := hall r (List.mem_cons.mpr (Or.inl rfl))
    rw [upsertOpportunity, if_neg (by simp [hr])]
    rw [ih (fun x hx => hall x (List.mem_cons.mpr (Or.inr hx)))]
    simp

theorem upsertOpportunity_match {skinId : ℕ} {c : Candidate} {now : ℕ} :
    ∀ (pre : List OppRow) (r : OppRow) (post : List OppRow),
      (∀ x ∈ pre, rowMatches skinId c.buyMarketplace c.sellMarketplace x = false) →
      rowMatches skinId c.buyMarketplace c.sellMarketplace r = true →
      upsertOpportunity skinId c now (pre ++ r :: post) = pre ++ updateRow r c now :: post := by
  intro pre
  induction pre with
  | nil =>
    intro r post _ hr
    rw [List.nil_append, upsertOpportunity, if_pos hr]
    simp
  | cons x xs ih =>
    intro r post hall hr
    have hx := hall x (List.mem_cons.mpr (Or.inl rfl))
    rw [List.cons_append, upsertOpportunity, if_neg (by simp [hx])]
    rw [ih r post (fun y hy => hall y (List.mem_cons.mpr (Or.inr hy))) hr]
    simp

theorem upsertOpportunity_length_of_match {skinId : ℕ} {c : Candidate} {now : ℕ} :
    ∀ {db : List OppRow},
      db.any (rowMatches skinId c.buyMarketplace c.sellMarketplace) = true →
      (upsertOpportunity skinId c now db).length = db.length := by
  intro db
  induction db with
  | nil => intro h; simp at h
  | cons r rest ih =>
    intro h
    rw [upsertOpportunity]
    by_cases hr : rowMatches skinId c.buyMarketplace c.sellMarketplace r = true
    · rw [if_pos hr]
      simp
    · rw [if_neg hr]
      have hrest : rest.any (rowMatches skinId c.buyMarketplace c.sellMarketplace) = true := by
        rcases List.any_eq_true.mp h with ⟨x, hx, hpx⟩
        rcases List.mem_cons.mp hx with rfl | hx'
        · exact absurd hpx hr
        · exact List.any_eq_true.mpr ⟨x, hx', hpx⟩
      simp [ih hrest]

theorem monitorLoop_eq (interval : ℕ) (running : ℕ → Bool) (outcome : ℕ → CycleResult)
    (j : ℕ) (hstop : running j = false) (hrun : ∀ i, i < j → running i = true) :
    ∀ (fuel start : ℕ), start ≤ j → j < start + fuel →
      monitorLoop interval running outcome fuel start =
        (List.range' start (j - start)).map (fun i => (i, cycleSleep interval (outcome i))) := by
  intro fuel
  induction fuel with
  | zero =>
    intro start h1 h2
    exact absurd h2 (by omega)
  | succ fuel ih =>
    intro start h1 h2
    rw [monitorLoop]
    by_cases hs : start = j
    · subst hs
      rw [hstop]
      simp
    · have hlt : start < j := lt_of_le_of_ne h1 hs
      rw [hrun start hlt]
      simp only [if_true]
      rw [ih (start + 1) (by omega) (by omega)]
      have hj : j - start = (j - (start + 1)) + 1 := by omega
      rw [hj, List.range'_succ]
      simp

theorem normalizeCondition_length (c : String) :
    (normalizeCondition c).length = c.length := by
  cases c with
  | mk data => simp [normalizeCondition, String.length]

theorem string_length_eq_zero {s : String} (h : s.length = 0) : s = "" := by
  cases s with
  | mk data =>
    cases data with
    | nil => rfl
    | cons c cs => simp [String.length] at h

theorem createItemKey_length (q : SkinPrice) (w : Option String) (s : String) :
    (createItemKey q w s).length =
      (w.getD "").length + s.length + (normalizeCondition q.condition).length +
        (if q.stattrak then 8 else 7) + (if q.souvenir then 8 else 6) + 4 := by
  rw [createItemKey]
  simp only [String.length_append]
  have hbar : ("|" : String).length = 1 := rfl
  have hst : ("stattrak" : String).length = 8 := rfl
  have hrg : ("regular" : String).length = 7 := rfl
  have hsv : ("souvenir" : String).length = 8 := rfl
  have hnm : ("normal" : String).length = 6 := rfl
  cases h1 : q.stattrak <;> cases h2 : q.souvenir <;>
    simp only [h1, h2, if_true, if_false, Bool.false_eq_true, hbar, hst, hrg, hsv, hnm] <;>
    omega

theorem normalizeCondition_real_ne : ∀ c ∈ realConditions, normalizeCondition c ≠ "" := by
  intro c hc
  simp only [realConditions, List.mem_cons, List.not_mem_nil, or_false] at hc
  rcases hc with rfl | rfl | rfl | rfl | rfl <;> decide

/- ------------------------------------------------------------------ -/
/- Claim theorems.                                                     -/
/- ------------------------------------------------------------------ -/

/-- Claim C10: for every input, the list of opportunities returned by the
stateless detection path is sorted by net profit in descending order. -/
theorem C10_sorted_by_net_profit (mt md : ℚ) (srcs : List SourceImpl) (skin : String)
    (w : Option String) (prices : List SkinPrice) :
    List.Pairwise (fun a b => b.netProfit ≤ a.netProfit)
      (findArbitrageOpportunities mt md srcs skin w prices) := by
  unfold findArbitrageOpportunities
  by_cases h : prices.length < 2
  · rw [if_pos h]
    exact List.Pairwise.nil
  · rw [if_neg h]
    exact pairwise_sortDescBy _ _

/-- Claim C9: detection is deterministic (a pure function of its input), the
per-marketplace minimum selection picks the FIRST quote attaining the
minimum price in input order, and grouping preserves input order inside each
group. -/
theorem C9_deterministic_first_tie_break :
    (∀ (mt md : ℚ) (srcs : List SourceImpl) (skin : String) (w : Option String)
        (prices : List SkinPrice),
      findArbitrageOpportunities mt md srcs skin w prices =
        findArbitrageOpportunities mt md srcs skin w prices) ∧
    (∀ (l : List SkinPrice) (m : SkinPrice),
      minByPrice l = some m →
      ∃ l₁ l₂, l = l₁ ++ m :: l₂ ∧ (∀ q ∈ l₁, m.price < q.price) ∧
        (∀ q ∈ l₂, m.price ≤ q.price)) ∧
    (∀ (key : SkinPrice → String) (k : String) (l : List SkinPrice),
      groupOf k (groupByKey key l) = l.filter (fun x => decide (key x = k))) := by
  refine ⟨fun _ _ _ _ _ _ => rfl, fun l m h => minByPrice_first h,
    fun key k l => groupOf_groupByKey key k l⟩

/-- Claim C9 witness: on two same-marketplace quotes tied at the minimum
price, the first one in input order is selected. -/
theorem C9_witness :
    ∃ l₁ l₂, tiedQuotes = l₁ ++
        ({ marketplace := "A", price := 5, url := "first" } : SkinPrice) :: l₂ ∧
      (∀ q ∈ l₁, ({ marketplace := "A", price := 5, url := "first" } : SkinPrice).price < q.price) ∧
      (∀ q ∈ l₂, ({ marketplace := "A", price := 5, url := "first" } : SkinPrice).price ≤ q.price) :=
  C9_deterministic_first_tie_break.2.1 tiedQuotes
    { marketplace := "A", price := 5, url := "first" } (by with_unfolding_all rfl)

/-- Claim C2: every opportunity emitted by the stateless path and every
candidate emitted by the persisted cycle satisfies all gates: distinct
marketplaces, spread at least the configured minimum, profit percentage at
least the threshold, and positive net profit. -/
theorem C2_all_gates_hold :
    (∀ (mt md : ℚ) (srcs : List SourceImpl) (skin : String) (w : Option String)
        (prices : List SkinPrice) (opp : Opportunity),
      opp ∈ findArbitrageOpportunities mt md srcs skin w prices →
      opp.buyMarketplace ≠ opp.sellMarketplace ∧
      opp.profitAmount = opp.sellPrice - opp.buyPrice ∧
      md ≤ opp.profitAmount ∧
      opp.profitPercentage = opp.profitAmount / opp.buyPrice * 100 ∧
      mt ≤ opp.profitPercentage ∧
      opp.netProfit = opp.profitAmount - opp.fees ∧
      0 < opp.netProfit) ∧
    (∀ (mt md : ℚ) (srcs : List SourceImpl) (rows : List PriceRow) (c : Candidate),
      analyzeSkinArbitrage mt md srcs rows = some c →
      c.buyMarketplace ≠ c.sellMarketplace ∧
      c.profitAmount = c.sellPrice - c.buyPrice ∧
      md ≤ c.profitAmount ∧
      c.profitPercentage = c.profitAmount / c.buyPrice * 100 ∧
      mt ≤ c.profitPercentage ∧
      c.netProfit = c.profitAmount - c.fees ∧
      0 < c.netProfit) := by
  constructor
  · intro mt md srcs skin w prices opp hmem
    obtain ⟨g, hg, hpg⟩ := mem_findArbitrage hmem
    obtain ⟨lo, hi, hmin, hmax, hne, hspread, hpct, hnet, hopp⟩ := processGroup_eq_some hpg
    subst hopp
    exact ⟨hne, rfl, hspread, rfl, hpct, rfl, hnet⟩
  · intro mt md srcs rows c h
    obtain ⟨bm, sm, hbuy, hsell, hbm, hsm, hne, hspread, hpct, hnet, hc⟩ :=
      analyzeSkinArbitrage_eq_some h
    subst hc
    exact ⟨hne, rfl, hspread, rfl, hpct, rfl, hnet⟩

/-- Claim C2 witness: the spec scenario (A at 10, B at 16, thresholds 5 and
5) emits, and the emitted opportunity satisfies every gate. -/
theorem C2_witness :
    (mkOpportunity [] "Redline" (some "AK-47") demoQuoteA demoQuoteB).buyMarketplace ≠
      (mkOpportunity [] "Redline" (some "AK-47") demoQuoteA demoQuoteB).sellMarketplace ∧
    (mkOpportunity [] "Redline" (some "AK-47") demoQuoteA demoQuoteB).profitAmount =
      (mkOpportunity [] "Redline" (some "AK-47") demoQuoteA demoQuoteB).sellPrice -
        (mkOpportunity [] "Redline" (some "AK-47") demoQuoteA demoQuoteB).buyPrice ∧
    (5 : ℚ) ≤ (mkOpportunity [] "Redline" (some "AK-47") demoQuoteA demoQuoteB).profitAmount ∧
    (mkOpportunity [] "Redline" (some "AK-47") demoQuoteA demoQuoteB).profitPercentage =
      (mkOpportunity [] "Redline" (some "AK-47") demoQuoteA demoQuoteB).profitAmount /
        (mkOpportunity [] "Redline" (some "AK-47") demoQuoteA demoQuoteB).buyPrice * 100 ∧
    (5 : ℚ) ≤ (mkOpportunity [] "Redline" (some "AK-47") demoQuoteA demoQuoteB).profitPercentage ∧
    (mkOpportunity [] "Redline" (some "AK-47") demoQuoteA demoQuoteB).netProfit =
      (mkOpportunity [] "Redline" (some "AK-47") demoQuoteA demoQuoteB).profitAmount -
        (mkOpportunity [] "Redline" (some "AK-47") demoQuoteA demoQuoteB).fees ∧
    (0 : ℚ) < (mkOpportunity [] "Redline" (some "AK-47") demoQuoteA demoQuoteB).netProfit :=
  C2_all_gates_hold.1 5 5 [] "Redline" (some "AK-47") [demoQuoteA, demoQuoteB]
    (mkOpportunity [] "Redline" (some "AK-47") demoQuoteA demoQuoteB)
    (by
      rw [show findArbitrageOpportunities 5 5 [] "Redline" (some "AK-47")
          [demoQuoteA, demoQuoteB] =
          [mkOpportunity [] "Redline" (some "AK-47") demoQuoteA demoQuoteB] from
          by with_unfolding_all rfl]
      exact List.mem_singleton.mpr rfl)

/-- Claim C3: every emitted opportunity carries fees equal to the buy-leg fee
plus the sell-leg fee; each leg dispatches to the FIRST configured source
whose lowercased name is a substring of the leg's lowercased marketplace
label, and is 0 when no source matches; the CSFloat fee is 0.025 times the
price and the Steam fee 0.15 times the price. -/
theorem C3_fee_dispatch :
    (∀ (mt md : ℚ) (srcs : List SourceImpl) (skin : String) (w : Option String)
        (prices : List SkinPrice) (opp : Opportunity),
      opp ∈ findArbitrageOpportunities mt md srcs skin w prices →
      opp.fees = getMarketplaceFees srcs opp.buyMarketplace opp.buyPrice +
        getMarketplaceFees srcs opp.sellMarketplace opp.sellPrice) ∧
    (∀ (srcs : List SourceImpl) (m : String) (p : ℚ),
      (∀ s ∈ srcs, strContains (strToLower m) (strToLower s.name) = false) →
      getMarketplaceFees srcs m p = 0) ∧
    (∀ (s : SourceImpl) (srcs : List SourceImpl) (m : String) (p : ℚ),
      strContains (strToLower m) (strToLower s.name) = true →
      getMarketplaceFees (s :: srcs) m p = s.fee p) ∧
    (∀ (s : SourceImpl) (srcs : List SourceImpl) (m : String) (p : ℚ),
      strContains (strToLower m) (strToLower s.name) = false →
      getMarketplaceFees (s :: srcs) m p = getMarketplaceFees srcs m p) ∧
    (∀ p : ℚ, csfloatGetFees p = 0.025 * p) ∧
    (∀ p : ℚ, steamGetFees p = 0.15 * p) := by
  refine ⟨?_, ?_, ?_, ?_, ?_, ?_⟩
  · intro mt md srcs skin w prices opp hmem
    obtain ⟨g, hg, hpg⟩ := mem_findArbitrage hmem
    obtain ⟨lo, hi, hmin, hmax, hne, hspread, hpct, hnet, hopp⟩ := processGroup_eq_some hpg
    subst hopp
    rfl
  · intro srcs m p hnone
    unfold getMarketplaceFees
    rw [List.find?_eq_none.mpr (fun s hs => by simp [hnone s hs])]
  · intro s srcs m p hmatch
    unfold getMarketplaceFees
    rw [List.find?_cons_of_pos _ (by simpa using hmatch)]
  · intro s srcs m p hmiss
    unfold getMarketplaceFees
    rw [List.find?_cons_of_neg _ (by simp [hmiss])]
  · intro p
    unfold csfloatGetFees
    ring
  · intro p
    unfold steamGetFees
    ring

/-- Claim C3 witness: a CSFloat-to-Steam opportunity (buy at 100, sell at
200) carries fees computed by the registry dispatch. -/
theorem C3_witness :
    (mkOpportunity demoRegistry "Redline" (some "AK-47") demoQuoteCsfloat demoQuoteSteam).fees =
      getMarketplaceFees demoRegistry
        (mkOpportunity demoRegistry "Redline" (some "AK-47") demoQuoteCsfloat
          demoQuoteSteam).buyMarketplace
        (mkOpportunity demoRegistry "Redline" (some "AK-47") demoQuoteCsfloat
          demoQuoteSteam).buyPrice +
      getMarketplaceFees demoRegistry
        (mkOpportunity demoRegistry "Redline" (some "AK-47") demoQuoteCsfloat
          demoQuoteSteam).sellMarketplace
        (mkOpportunity demoRegistry "Redline" (some "AK-47") demoQuoteCsfloat
          demoQuoteSteam).sellPrice :=
  C3_fee_dispatch.1 5 50 demoRegistry "Redline" (some "AK-47")
    [demoQuoteCsfloat, demoQuoteSteam]
    (mkOpportunity demoRegistry "Redline" (some "AK-47") demoQuoteCsfloat demoQuoteSteam)
    (by
      rw [show findArbitrageOpportunities 5 50 demoRegistry "Redline" (some "AK-47")
          [demoQuoteCsfloat, demoQuoteSteam] =
          [mkOpportunity demoRegistry "Redline" (some "AK-47") demoQuoteCsfloat demoQuoteSteam]
          from by with_unfolding_all rfl]
      exact List.mem_singleton.mpr rfl)

/-- Claim C1 (amended): in the stateless path, detection selects the
cheapest quote per marketplace, takes the global minimum of those as the buy
side and the global maximum of those as the sell side, and discards the
group when they share a marketplace; in the persisted cycle, the buy price
is the global minimum and the sell price the global maximum over ALL of the
item's recent rows (not only the per-marketplace cheapest ones), and the
candidate is discarded when the attributed marketplaces coincide. -/
theorem C1_buy_sell_selection :
    (∀ (mt md : ℚ) (srcs : List SourceImpl) (skin : String) (w : Option String)
        (ps : List SkinPrice) (opp : Opportunity),
      processGroup mt md srcs skin w ps = some opp →
      ∃ lo hi, minByPrice (perMarketplaceLowest ps) = some lo ∧
        maxByPrice (perMarketplaceLowest ps) = some hi ∧
        (∀ g ∈ groupByKey (fun p => p.marketplace) ps, ∀ e, minByPrice g.2 = some e →
          ∀ q ∈ g.2, e.price ≤ q.price) ∧
        (∀ q ∈ perMarketplaceLowest ps, lo.price ≤ q.price ∧ q.price ≤ hi.price) ∧
        opp.buyMarketplace = lo.marketplace ∧ opp.buyPrice = lo.price ∧
        opp.sellMarketplace = hi.marketplace ∧ opp.sellPrice = hi.price ∧
        opp.buyMarketplace ≠ opp.sellMarketplace) ∧
    (∀ (mt md : ℚ) (srcs : List SourceImpl) (skin : String) (w : Option String)
        (ps : List SkinPrice) (lo hi : SkinPrice),
      minByPrice (perMarketplaceLowest ps) = some lo →
      maxByPrice (perMarketplaceLowest ps) = some hi →
      lo.marketplace = hi.marketplace →
      processGroup mt md srcs skin w ps = none) ∧
    (∀ (mt md : ℚ) (srcs : List SourceImpl) (rows : List PriceRow) (c : Candidate),
      analyzeSkinArbitrage mt md srcs rows = some c →
      c.buyPrice = pyMinQ (rows.map (fun r => r.price)) ∧
      c.sellPrice = pyMaxQ (rows.map (fun r => r.price)) ∧
      (∀ r ∈ rows, c.buyPrice ≤ r.price ∧ r.price ≤ c.sellPrice) ∧
      c.buyMarketplace ≠ c.sellMarketplace) := by
  refine ⟨?_, ?_, ?_⟩
  · intro mt md srcs skin w ps opp h
    obtain ⟨lo, hi, hmin, hmax, hne, hspread, hpct, hnet, hopp⟩ := processGroup_eq_some h
    subst hopp
    refine ⟨lo, hi, hmin, hmax, ?_, ?_, rfl, rfl, rfl, rfl, hne⟩
    · intro g hg e he q hq
      exact minByPrice_le he q hq
    · intro q hq
      exact ⟨minByPrice_le hmin q hq, maxByPrice_ge hmax q hq⟩
  · intro mt md srcs skin w ps lo hi hmin hmax hsame
    exact processGroup_same_marketplace hmin hmax hsame
  · intro mt md srcs rows c h
    obtain ⟨bm, sm, hbuy, hsell, hbm, hsm, hne, hspread, hpct, hnet, hc⟩ :=
      analyzeSkinArbitrage_eq_some h
    subst hc
    refine ⟨rfl, rfl, ?_, hne⟩
    intro r hr
    exact ⟨pyMinQ_le r.price (List.mem_map_of_mem _ hr),
      pyMaxQ_ge r.price (List.mem_map_of_mem _ hr)⟩

/-- Claim C1 counterexample: on rows A at 10, B at 100, B at 200 the
persisted detector's sell candidate is 200 — the global maximum over all
rows — while the global maximum of the per-marketplace cheapest prices is
100, so detection does NOT uniformly take the maximum of the per-marketplace
cheapest quotes as the claim states. -/
theorem C1_counterexample :
    (analyzeSkinArbitrage 5 50 [] rowsWithHighSell).map (fun c => c.sellPrice) = some 200 ∧
    pyMaxQ ((groupByKey (fun r => r.marketplace) rowsWithHighSell).map
      (fun g => pyMinQ (g.2.map (fun r => r.price)))) = 100 ∧
    (200 : ℚ) ≠ 100 := by
  refine ⟨by with_unfolding_all rfl, by with_unfolding_all rfl, by with_unfolding_all decide⟩

/-- Claim C1 witness: on the two-marketplace demo group, the stateless
analysis selects A at 10 to buy and B at 16 to sell. -/
theorem C1_witness :
    ∃ lo hi, minByPrice (perMarketplaceLowest [demoQuoteA, demoQuoteB]) = some lo ∧
      maxByPrice (perMarketplaceLowest [demoQuoteA, demoQuoteB]) = some hi ∧
      (∀ g ∈ groupByKey (fun p => p.marketplace) [demoQuoteA, demoQuoteB], ∀ e,
        minByPrice g.2 = some e → ∀ q ∈ g.2, e.price ≤ q.price) ∧
      (∀ q ∈ perMarketplaceLowest [demoQuoteA, demoQuoteB],
        lo.price ≤ q.price ∧ q.price ≤ hi.price) ∧
      (mkOpportunity [] "Redline" (some "AK-47") demoQuoteA demoQuoteB).buyMarketplace =
        lo.marketplace ∧
      (mkOpportunity [] "Redline" (some "AK-47") demoQuoteA demoQuoteB).buyPrice = lo.price ∧
      (mkOpportunity [] "Redline" (some "AK-47") demoQuoteA demoQuoteB).sellMarketplace =
        hi.marketplace ∧
      (mkOpportunity [] "Redline" (some "AK-47") demoQuoteA demoQuoteB).sellPrice = hi.price ∧
      (mkOpportunity [] "Redline" (some "AK-47") demoQuoteA demoQuoteB).buyMarketplace ≠
        (mkOpportunity [] "Redline" (some "AK-47") demoQuoteA demoQuoteB).sellMarketplace :=
  C1_buy_sell_selection.1 5 5 [] "Redline" (some "AK-47") [demoQuoteA, demoQuoteB]
    (mkOpportunity [] "Redline" (some "AK-47") demoQuoteA demoQuoteB)
    (by with_unfolding_all rfl)

/-- Claim C4: a source that raises on every call contributes zero quotes:
the aggregate over the full configuration equals the aggregate over the
remaining sources, which is the concatenation of their results — the failure
aborts nothing. -/
theorem C4_failing_source_isolated (pre post : List SourceImpl) (bad : SourceImpl)
    (q : String) (w : Option String)
    (hbad : ∀ q' w', ∃ e, bad.search q' w' = Except.error e) :
    searchSkinManual (pre ++ bad :: post) q w = searchSkinManual (pre ++ post) q w ∧
    searchSkinManual (pre ++ bad :: post) q w =
      searchSkinManual pre q w ++ searchSkinManual post q w := by
  obtain ⟨e, he⟩ := hbad q w
  have hb : searchSkinManual (bad :: post) q w = searchSkinManual post q w := by
    rw [searchSkinManual_cons, he]
    simp
  constructor
  · rw [searchSkinManual_append, hb, ← searchSkinManual_append]
  · rw [searchSkinManual_append, hb]

/-- Claim C4 witness: with a healthy source on each side of an
always-raising one, aggregation returns exactly the two healthy sources'
quotes. -/
theorem C4_witness :
    searchSkinManual ([goodSource] ++ badSource :: [goodSourceB]) "Redline" none =
      searchSkinManual ([goodSource] ++ [goodSourceB]) "Redline" none ∧
    searchSkinManual ([goodSource] ++ badSource :: [goodSourceB]) "Redline" none =
      searchSkinManual [goodSource] "Redline" none ++
        searchSkinManual [goodSourceB] "Redline" none :=
  C4_failing_source_isolated [goodSource] [goodSourceB] badSource "Redline" none
    (fun _ _ => ⟨"boom", rfl⟩)

/-- Claim C5 (amended): the grouping key case-folds and
whitespace-normalizes the condition text and uses weapon and skin names as
given; a missing condition maps to the EMPTY-STRING sentinel (displayed as
"Unknown"), which is distinct from every real condition value. -/
theorem C5_identity_normalization :
    (∀ (q₁ q₂ : SkinPrice) (w : Option String) (s : String),
      normalizeCondition q₁.condition = normalizeCondition q₂.condition →
      q₁.stattrak = q₂.stattrak → q₁.souvenir = q₂.souvenir →
      createItemKey q₁ w s = createItemKey q₂ w s) ∧
    normalizeCondition "" = "" ∧
    (∀ c ∈ realConditions, normalizeCondition c ≠ "") ∧
    (∀ (q q' : SkinPrice) (w : Option String) (s : String),
      q.condition = "" → q'.condition ∈ realConditions →
      q'.stattrak = q.stattrak → q'.souvenir = q.souvenir →
      createItemKey q' w s ≠ createItemKey q w s) ∧
    (∀ (q : SkinPrice) (w : Option String) (s₁ s₂ : String),
      createItemKey q w s₁ = createItemKey q w s₂ → s₁.length = s₂.length) ∧
    (∀ q : SkinPrice, q.condition = "" → extractCondition q = "Unknown") := by
  refine ⟨?_, rfl, normalizeCondition_real_ne, ?_, ?_, ?_⟩
  · intro q₁ q₂ w s h1 h2 h3
    unfold createItemKey
    rw [h1, h2, h3]
  · intro q q' w s hq hq' hst hsv heq
    have hlen := congrArg String.length heq
    rw [createItemKey_length, createItemKey_length, hq, hst, hsv] at hlen
    have h0 : (normalizeCondition "").length = 0 := rfl
    have hz : (normalizeCondition q'.condition).length = 0 := by omega
    exact normalizeCondition_real_ne q'.condition hq' (string_length_eq_zero hz)
  · intro q w s₁ s₂ heq
    have hlen := congrArg String.length heq
    rw [createItemKey_length, createItemKey_length] at hlen
    omega
  · intro q hq
    unfold extractCondition
    rw [if_pos hq]

/-- Claim C5 counterexample: a missing condition yields the key condition
segment "" — the key differs from the one a condition of "unknown" would
produce, so the sentinel is NOT the string "unknown". -/
theorem C5_counterexample :
    createItemKey quoteNoCondition (some "AK-47") "Redline" =
      "AK-47|Redline||regular|normal" ∧
    createItemKey quoteNoCondition (some "AK-47") "Redline" ≠
      createItemKey { quoteNoCondition with condition := "unknown" } (some "AK-47") "Redline" := by
  exact ⟨by decide, by decide⟩

/-- Claim C5 witness: conditions differing only in case and spacing group
together, and a Factory New quote never groups with a missing-condition
quote. -/
theorem C5_witness :
    createItemKey { quoteNoCondition with condition := "Factory New" } (some "AK-47") "Redline" =
      createItemKey { quoteNoCondition with condition := "factory new" } (some "AK-47") "Redline" ∧
    createItemKey { quoteNoCondition with condition := "Factory New" } (some "AK-47") "Redline" ≠
      createItemKey quoteNoCondition (some "AK-47") "Redline" :=
  ⟨C5_identity_normalization.1
      { quoteNoCondition with condition := "Factory New" }
      { quoteNoCondition with condition := "factory new" }
      (some "AK-47") "Redline" (by decide) rfl rfl,
    C5_identity_normalization.2.2.2.1
      quoteNoCondition { quoteNoCondition with condition := "Factory New" }
      (some "AK-47") "Redline" rfl (by decide) rfl rfl⟩

/-- Claim C6: upserting a candidate while an active row for its (item, buy,
sell) triple exists overwrites that row in place (no length change); with no
matching active row a single new active row is appended; and two successive
upserts of the same triple starting from a triple-free ledger leave exactly
one active row holding the second candidate's values and timestamp. -/
theorem C6_upsert_refresh_or_insert :
    (∀ (skinId : ℕ) (c : Candidate) (now : ℕ) (pre post : List OppRow) (r : OppRow),
      (∀ x ∈ pre, rowMatches skinId c.buyMarketplace c.sellMarketplace x = false) →
      rowMatches skinId c.buyMarketplace c.sellMarketplace r = true →
      upsertOpportunity skinId c now (pre ++ r :: post) = pre ++ updateRow r c now :: post ∧
      (upsertOpportunity skinId c now (pre ++ r :: post)).length = (pre ++ r :: post).length) ∧
    (∀ (skinId : ℕ) (c : Candidate) (now : ℕ) (db : List OppRow),
      (∀ r ∈ db, rowMatches skinId c.buyMarketplace c.sellMarketplace r = false) →
      upsertOpportunity skinId c now db = db ++ [newRow skinId c now]) ∧
    (∀ (skinId : ℕ) (c₁ c₂ : Candidate) (t₁ t₂ : ℕ) (db : List OppRow),
      c₁.buyMarketplace = c₂.buyMarketplace → c₁.sellMarketplace = c₂.sellMarketplace →
      (∀ r ∈ db, rowMatches skinId c₁.buyMarketplace c₁.sellMarketplace r = false) →
      (upsertOpportunity skinId c₂ t₂ (upsertOpportunity skinId c₁ t₁ db)).filter
        (rowMatches skinId c₂.buyMarketplace c₂.sellMarketplace) = [newRow skinId c₂ t₂]) := by
  refine ⟨?_, ?_, ?_⟩
  · intro skinId c now pre post r hpre hr
    have heq := @upsertOpportunity_match skinId c now pre r post hpre hr
    refine ⟨heq, ?_⟩
    rw [heq]
    simp
  · intro skinId c now db hall
    exact upsertOpportunity_no_match hall
  · intro skinId c₁ c₂ t₁ t₂ db hbm hsm hfree
    have h1 : upsertOpportunity skinId c₁ t₁ db = db ++ [newRow skinId c₁ t₁] :=
      upsertOpportunity_no_match hfree
    have hfree₂ : ∀ x ∈ db, rowMatches skinId c₂.buyMarketplace c₂.sellMarketplace x = false := by
      intro x hx
      rw [← hbm, ← hsm]
      exact hfree x hx
    have hn₁ : rowMatches skinId c₂.buyMarketplace c₂.sellMarketplace
        (newRow skinId c₁ t₁) = true := by
      simp [rowMatches, newRow, hbm, hsm]
    have h2 : upsertOpportunity skinId c₂ t₂ (db ++ [newRow skinId c₁ t₁]) =
        db ++ updateRow (newRow skinId c₁ t₁) c₂ t₂ :: [] :=
      upsertOpportunity_match db (newRow skinId c₁ t₁) [] hfree₂ hn₁
    have h3 : updateRow (newRow skinId c₁ t₁) c₂ t₂ = newRow skinId c₂ t₂ := by
      simp [updateRow, newRow, OppRow.mk.injEq, hbm, hsm]
    rw [h1, h2, h3, List.filter_append]
    rw [List.filter_eq_nil_iff.mpr (fun a ha => by simp [hfree₂ a ha])]
    have hn₂ : rowMatches skinId c₂.buyMarketplace c₂.sellMarketplace
        (newRow skinId c₂ t₂) = true := by
      simp [rowMatches, newRow]
    simp [hn₂]

/-- Claim C6 witness: two upserts of the A-to-B triple with different prices
leave exactly one active row holding the later values. -/
theorem C6_witness :
    (upsertOpportunity 1 demoCandidateLater 7 (upsertOpportunity 1 demoCandidate 3 [])).filter
      (rowMatches 1 demoCandidateLater.buyMarketplace demoCandidateLater.sellMarketplace) =
      [newRow 1 demoCandidateLater 7] :=
  C6_upsert_refresh_or_insert.2.2 1 demoCandidate demoCandidateLater 3 7 [] rfl rfl
    (fun r hr => absurd hr (List.not_mem_nil r))

/-- Claim C7: the active-opportunity query returns only active rows whose
profit percentage lies within the requested range, ordered by net profit
descending and capped at the requested limit; the stateless endpoint filter
enforces the same range and order, and the monitor's fixed query returns
active rows, net-profit-descending, capped at 50. -/
theorem C7_query_active_filtered_ranked :
    (∀ (db : List OppRow) (minProfit maxProfit : ℚ) (limit : ℕ),
      (queryActiveOpportunities db minProfit maxProfit limit).all
        (fun r => r.isActive && decide (minProfit ≤ r.profitPercentage) &&
          decide (r.profitPercentage ≤ maxProfit)) = true ∧
      List.Pairwise (fun a b => b.netProfit ≤ a.netProfit)
        (queryActiveOpportunities db minProfit maxProfit limit) ∧
      (queryActiveOpportunities db minProfit maxProfit limit).length ≤ limit) ∧
    (∀ (opps : List Opportunity) (minProfit maxProfit : ℚ),
      (filterOpportunitiesByProfit opps minProfit maxProfit).all
        (fun o => decide (minProfit ≤ o.profitPercentage) &&
          decide (o.profitPercentage ≤ maxProfit)) = true ∧
      List.Pairwise (fun a b => b.netProfit ≤ a.netProfit)
        (filterOpportunitiesByProfit opps minProfit maxProfit)) ∧
    (∀ db : List OppRow,
      (getCurrentOpportunities db).all (fun r => r.isActive) = true ∧
      List.Pairwise (fun a b => b.netProfit ≤ a.netProfit) (getCurrentOpportunities db) ∧
      (getCurrentOpportunities db).length ≤ 50) := by
  refine ⟨?_, ?_, ?_⟩
  · intro db minProfit maxProfit limit
    unfold queryActiveOpportunities
    refine ⟨List.all_eq_true.mpr ?_, ?_, ?_⟩
    · intro r hr
      have hr' := List.mem_of_mem_take hr
      rw [mem_sortDescBy] at hr'
      exact (List.mem_filter.mp hr').2
    · exact (pairwise_sortDescBy (fun r : OppRow => r.netProfit) _).sublist
        (List.take_sublist _ _)
    · exact List.length_take_le _ _
  · intro opps minProfit maxProfit
    unfold filterOpportunitiesByProfit
    refine ⟨List.all_eq_true.mpr ?_, ?_⟩
    · intro o ho
      rw [mem_sortDescBy] at ho
      exact (List.mem_filter.mp ho).2
    · exact pairwise_sortDescBy (fun o : Opportunity => o.netProfit) _
  · intro db
    unfold getCurrentOpportunities
    refine ⟨List.all_eq_true.mpr ?_, ?_, ?_⟩
    · intro r hr
      have hr' := List.mem_of_mem_take hr
      rw [mem_sortDescBy] at hr'
      exact (List.mem_filter.mp hr').2
    · exact (pairwise_sortDescBy (fun r : OppRow => r.netProfit) _).sublist
        (List.take_sublist _ _)
    · exact List.length_take_le _ _

/-- Claim C8: an exception escaping a whole cycle is followed by the
60-second backoff and the loop proceeds to the next cycle — no outcome
pattern terminates the scheduler while the running flag holds; once the flag
is cleared the loop exits at the TOP of the next iteration, with every
iteration that started under a set flag completing in the trace. -/
theorem C8_cycle_failure_backoff_and_stop :
    (∀ (interval : ℕ) (running : ℕ → Bool) (outcome : ℕ → CycleResult) (j fuel : ℕ),
      running j = false → (∀ i, i < j → running i = true) → j < fuel →
      startMonitoring interval running outcome fuel =
        (List.range j).map (fun i => (i, cycleSleep interval (outcome i)))) ∧
    (∀ interval : ℕ, cycleSleep interval CycleResult.err = 60) ∧
    (∀ interval : ℕ, cycleSleep interval CycleResult.ok = interval) := by
  refine ⟨?_, fun _ => rfl, fun _ => rfl⟩
  intro interval running outcome j fuel hstop hrun hfuel
  unfold startMonitoring
  rw [monitorLoop_eq interval running outcome j hstop hrun fuel 0 (Nat.zero_le j)
    (by omega)]
  rw [List.range_eq_range' j]
  simp

/-- Claim C8 witness: with the flag cleared before iteration 2 and the first
cycle raising, the trace is cycle 0 followed by the 60-second backoff, then
cycle 1 followed by the 300-second interval sleep, and nothing more. -/
theorem C8_witness :
    startMonitoring 300 runTwoCycles firstCycleRaises 5 =
      (List.range 2).map (fun i => (i, cycleSleep 300 (firstCycleRaises i))) :=
  C8_cycle_failure_backoff_and_stop.1 300 runTwoCycles firstCycleRaises 2 5 rfl
    (fun i hi => by simpa [runTwoCycles] using hi) (by omega)
